import Mathlib

/-!
Verification of the normalization engine (`normalization.py`): attribute
closure, candidate-key enumeration, normal-form classification, BCNF
decomposition, and FD text parsing.  Attribute sets are modelled as
`Finset α` (Python `set`), functional dependencies as pairs of finsets
kept in declaration order (Python `list` of pairs).
-/

namespace NormTool

/-- A functional dependency: (determinant, dependent), both attribute sets. -/
abbrev FD (α : Type) := Finset α × Finset α

section ClosureDefs

variable {α : Type} [DecidableEq α]

/-- Union of all FD dependents, built left to right as in
`for lhs, rhs in fds: rhs_union.update(rhs)` in `find_candidate_keys`. -/
def rhsUnion (fds : List (FD α)) : Finset α :=
  fds.foldl (fun acc p => acc ∪ p.2) ∅

/-- One full scan of the FD list, as one pass of the `while changed` loop in
`attribute_closure`: for each FD whose determinant is contained in the
accumulated set, union in its dependent. -/
def scanFDs (fds : List (FD α)) (c : Finset α) : Finset α :=
  fds.foldl (fun acc p => if p.1 ⊆ acc then acc ∪ p.2 else acc) c

/-- Iterate `scanFDs` until a scan changes nothing (the `while changed` loop),
with explicit fuel. -/
def closIter (fds : List (FD α)) : Nat → Finset α → Finset α
  | 0, c => c
  | n + 1, c => if scanFDs fds c = c then c else closIter fds n (scanFDs fds c)

/-- Fuel that provably suffices for `closIter` to reach the fixed point:
every scan can only add dependent attributes, of which there are at most
the sum of the dependent cardinalities. -/
def closureFuel (X : Finset α) (fds : List (FD α)) : Nat :=
  X.card + (fds.map (fun p => p.2.card)).sum + 1

/-- Embedding of `attribute_closure(attributes, fds)`: the closure of `X` under `fds`,
computed by the fixed-point iteration of `normalization.py`. -/
def attribute_closure (X : Finset α) (fds : List (FD α)) : Finset α :=
  closIter fds (closureFuel X fds) X

end ClosureDefs

section SortDefs

variable {α : Type} [LinearOrder α]

/-- Enumeration of a multiset as a sorted list (helper for `sortFinset`). -/
def sortMultiset (m : Multiset α) : List α :=
  Quot.liftOn m (fun l => l.insertionSort (· ≤ ·))
    (fun l₁ l₂ h => by
      refine List.eq_of_perm_of_sorted ?_
        (List.sorted_insertionSort _ l₁) (List.sorted_insertionSort _ l₂)
      exact ((List.perm_insertionSort _ l₁).trans h).trans
        (List.perm_insertionSort _ l₂).symm)

/-- A concrete enumeration of a finite set as a list, embedding Python's
`list(some_set)` (whose order is unspecified; we fix the sorted order). -/
def sortFinset (s : Finset α) : List α :=
  sortMultiset s.val

end SortDefs

section KeyDefs

variable {α : Type} [LinearOrder α]

/-- All candidate attribute sets tried by `find_candidate_keys`, in the order
they are tried: `essential ∪ combination` for combinations of the remaining
attributes of size 0, 1, 2, … . -/
def keyCandidates (all_attrs : Finset α) (fds : List (FD α)) : List (Finset α) :=
  (List.range ((sortFinset (all_attrs \ (all_attrs \ rhsUnion fds))).length + 1)).flatMap
    (fun r =>
      (List.sublistsLen r (sortFinset (all_attrs \ (all_attrs \ rhsUnion fds)))).map
        (fun comb => (all_attrs \ rhsUnion fds) ∪ comb.toFinset))

/-- Accumulator step of the key search: skip a candidate when an already
accepted key is contained in it, otherwise accept it when its closure is the
full universe. -/
def keyStep (fds : List (FD α)) (all_attrs : Finset α)
    (keys : List (Finset α)) (cand : Finset α) : List (Finset α) :=
  if keys.any (fun k => decide (k ⊆ cand)) then keys
  else if attribute_closure cand fds = all_attrs then keys ++ [cand]
  else keys

/-- Embedding of `find_candidate_keys(all_attrs, fds)`, including the final fallback that
appends the full attribute set when the search accepted nothing and the full
set passes the closure check. -/
def find_candidate_keys (all_attrs : Finset α) (fds : List (FD α)) : List (Finset α) :=
  if (keyCandidates all_attrs fds).foldl (keyStep fds all_attrs) [] = [] then
    (if attribute_closure all_attrs fds = all_attrs then [all_attrs] else [])
  else (keyCandidates all_attrs fds).foldl (keyStep fds all_attrs) []

end KeyDefs

section ClassifierDefs

variable {α : Type} [DecidableEq α]

/-- A reported violation: (determinant, offending dependent part, reason). -/
abbrev Viol (α : Type) := Finset α × Finset α × String

/-- The single pass of `determine_normal_form` over the FD list, accumulating
the 2NF, 3NF and BCNF violation lists (in that order in the triple). -/
def nfStep (attrs : Finset α) (fds : List (FD α)) (keys : List (Finset α))
    (s : List (Viol α) × List (Viol α) × List (Viol α)) (p : FD α) :
    List (Viol α) × List (Viol α) × List (Viol α) :=
  if p.1 ⊆ attrs ∧ p.2 ⊆ attrs then
    (if (p.2 \ p.1) = ∅ then s
     else if attrs ⊆ attribute_closure p.1 fds then s
     else
       let vb := s.2.2 ++ [(p.1, p.2 \ p.1, "LHS is not a superkey")]
       let isProper := keys.any (fun k => decide (p.1 ⊆ k) && decide (p.1 ≠ k))
       let nonPrime := (p.2 \ p.1) \ keys.foldl (fun acc k => acc ∪ k) ∅
       if isProper then
         (if nonPrime ≠ ∅ then
            (s.1 ++ [(p.1, nonPrime, "Partial dependency")], s.2.1, vb)
          else (s.1, s.2.1, vb))
       else
         (if nonPrime ≠ ∅ then
            (s.1, s.2.1 ++ [(p.1, nonPrime, "Transitive dependency")], vb)
          else (s.1, s.2.1, vb)))
  else s

/-- The three violation lists computed by `determine_normal_form`:
`(violations_2nf, violations_3nf, violations_bcnf)`. -/
def nfViolations (attrs : Finset α) (fds : List (FD α)) (keys : List (Finset α)) :
    List (Viol α) × List (Viol α) × List (Viol α) :=
  fds.foldl (nfStep attrs fds keys) ([], [], [])

/-- Embedding of `determine_normal_form(relation_attrs, fds, candidate_keys)`: the verdict,
explanation, and violating-FD list, chosen by the strict precedence chain. -/
def determine_normal_form (attrs : Finset α) (fds : List (FD α))
    (keys : List (Finset α)) : String × String × List (Viol α) :=
  if (nfViolations attrs fds keys).1 ≠ [] then
    ("1NF", "Violates 2NF (Partial Dependencies detected).",
      (nfViolations attrs fds keys).1)
  else if (nfViolations attrs fds keys).2.1 ≠ [] then
    ("2NF", "Violates 3NF (Transitive Dependencies detected).",
      (nfViolations attrs fds keys).2.1)
  else if (nfViolations attrs fds keys).2.2 ≠ [] then
    ("3NF", "Violates BCNF (Dependencies where LHS is not a superkey detected).",
      (nfViolations attrs fds keys).2.2)
  else ("BCNF", "Satisfies BCNF (All determinants are superkeys).", [])

end ClassifierDefs

section DecomposerDefs

variable {α : Type} [DecidableEq α]

/-- A relation schema: a name and an attribute set. -/
structure Schema (α : Type) where
  name : List Char
  attrs : Finset α
deriving DecidableEq

/-- One recorded decomposition step: the source schema, the violating FD
`(fdL, fdR)` (determinant and the part it determines inside the source), and
the two child schemas. -/
structure DStep (α : Type) where
  current : Schema α
  fdL : Finset α
  fdR : Finset α
  child1 : Schema α
  child2 : Schema α
deriving DecidableEq

/-- The violation search inside `decompose_to_bcnf`: the first FD (in
declaration order) whose determinant lies in the schema, determines something
there, and is not a superkey of the schema. -/
def findViolation (fdsAll : List (FD α)) (attrs : Finset α) :
    List (FD α) → Option (Finset α × Finset α)
  | [] => none
  | p :: rest =>
    if p.1 ⊆ attrs then
      (if (attribute_closure p.1 fdsAll ∩ attrs) \ p.1 = ∅ then
        findViolation fdsAll attrs rest
      else if attrs ⊆ attribute_closure p.1 fdsAll ∩ attrs then
        findViolation fdsAll attrs rest
      else some (p.1, (attribute_closure p.1 fdsAll ∩ attrs) \ p.1))
    else findViolation fdsAll attrs rest

/-- The work-queue loop of `decompose_to_bcnf` with its iteration budget.
Returns `(steps, final_schemas, unprocessed queue)`; the source discards the
third component. -/
def bcnfLoop (fds : List (FD α)) :
    Nat → List (Schema α) → List (DStep α) → List (Schema α) →
    List (DStep α) × List (Schema α) × List (Schema α)
  | _, [], steps, finals => (steps, finals, [])
  | 0, q, steps, finals => (steps, finals, q)
  | n + 1, s :: q, steps, finals =>
    match findViolation fds s.attrs fds with
    | some (x, y) =>
      bcnfLoop fds n
        (q ++ [⟨s.name ++ ['_', '1'], x ∪ y⟩, ⟨s.name ++ ['_', '2'], s.attrs \ (y \ x)⟩])
        (steps ++ [⟨s, x, y, ⟨s.name ++ ['_', '1'], x ∪ y⟩,
          ⟨s.name ++ ['_', '2'], s.attrs \ (y \ x)⟩⟩])
        finals
    | none => bcnfLoop fds n q steps (finals ++ [s])

/-- Embedding of `decompose_to_bcnf(relation_name, relation_attrs, fds)`: runs the queue
loop with the hard cap of 50 iterations and returns `(steps, final_schemas)`,
dropping the possibly non-empty remaining queue. -/
def decompose_to_bcnf (name : List Char) (attrs : Finset α) (fds : List (FD α)) :
    List (DStep α) × List (Schema α) :=
  ((bcnfLoop fds 50 [⟨name, attrs⟩] [] []).1, (bcnfLoop fds 50 [⟨name, attrs⟩] [] []).2.1)

end DecomposerDefs

section ParserDefs

/-- Python-style `str.strip` on a list of characters. -/
def trimL (l : List Char) : List Char :=
  ((l.dropWhile Char.isWhitespace).reverse.dropWhile Char.isWhitespace).reverse

/-- Python-style `str.split(sep)` (non-overlapping, left to right), with fuel;
used only with non-empty separators, for which the initial fuel
`l.length` always suffices. -/
def splitFuel (sep : List Char) : Nat → List Char → List Char → List (List Char)
  | _, [], acc => [acc.reverse]
  | 0, l, acc => [acc.reverse ++ l]
  | n + 1, c :: cs, acc =>
    if sep.isPrefixOf (c :: cs) then
      acc.reverse :: splitFuel sep n ((c :: cs).drop sep.length) []
    else splitFuel sep n cs (c :: acc)

/-- Embedding of `line.split(sep)` for a non-empty separator. -/
def splitL (sep l : List Char) : List (List Char) :=
  splitFuel sep l.length l []

/-- Python's `sep in line` substring test. -/
def containsSub (sep : List Char) : List Char → Bool
  | [] => sep.isPrefixOf []
  | c :: cs => sep.isPrefixOf (c :: cs) || containsSub sep cs

/-- The Unicode arrow separator `"→"`. -/
def arrowU : List Char := ['→']

/-- The separator `parse_fds` chooses for a (stripped) line: `"→"` when the
line contains it, `"->"` otherwise. -/
def arrowOf (l : List Char) : List Char :=
  if containsSub arrowU l then arrowU else ['-', '>']

/-- The split of a line on its chosen separator, after stripping. -/
def lineParts (line : List Char) : List (List Char) :=
  splitL (arrowOf (trimL line)) (trimL line)

/-- One side of an FD as parsed from text:
`set(attr.strip() for attr in side.split(","))`. -/
def mkSide (s : List Char) : Finset (List Char) :=
  ((splitL [','] s).map trimL).toFinset

/-- The per-line loop of `parse_fds`: blank lines and lines without the
separator are skipped, a two-part split becomes an FD, and a many-part split
is the uncaught `ValueError` of unpacking, modelled as `Except.error`. -/
def parse_fds_lines : List (List Char) → Except Unit (List (FD (List Char)))
  | [] => .ok []
  | line :: rest =>
    if trimL line = [] then parse_fds_lines rest
    else
      match lineParts line with
      | [_] => parse_fds_lines rest
      | [a, b] => (parse_fds_lines rest).map (fun fds => (mkSide a, mkSide b) :: fds)
      | _ => .error ()

/-- Embedding of `parse_fds(fd_str)`: strip the input, split it into lines, parse each. -/
def parse_fds (input : List Char) : Except Unit (List (FD (List Char))) :=
  parse_fds_lines (splitL ['\n'] (trimL input))

end ParserDefs

section CapInput

/-- Universe for the decomposition-cap run: attributes 0..50. -/
def capAttrs : Finset Nat := Finset.range 51

/-- Twenty-five disjoint FDs `{2i} → {2i+1}`: each forces one decomposition split, so
the run needs 51 queue iterations, one more than the cap of 50. -/
def capFds : List (FD Nat) :=
  (List.range 25).map (fun i => ({2 * i}, {2 * i + 1}))

end CapInput

/-! Closure engine lemmas -/

section ClosureLemmas

variable {α : Type} [DecidableEq α]

lemma subset_foldl_union (fds : List (FD α)) :
    ∀ init : Finset α, init ⊆ fds.foldl (fun acc p => acc ∪ p.2) init := by
  induction fds with
  | nil => intro init; simp
  | cons q fds ih =>
    intro init
    simpa [List.foldl] using (Finset.subset_union_left).trans (ih (init ∪ q.2))

lemma subset_rhsUnion (fds : List (FD α)) {p : FD α} (hp : p ∈ fds) :
    p.2 ⊆ rhsUnion fds := by
  suffices h : ∀ init : Finset α, p.2 ⊆ fds.foldl (fun acc p => acc ∪ p.2) init from
    h ∅
  induction fds with
  | nil => cases hp
  | cons q fds ih =>
    intro init
    rcases List.mem_cons.mp hp with h | h
    · subst h
      exact (Finset.subset_union_right).trans (subset_foldl_union fds (init ∪ p.2))
    · simpa [List.foldl] using ih h (init ∪ q.2)

lemma card_rhsUnion_le (fds : List (FD α)) :
    (rhsUnion fds).card ≤ (fds.map (fun p => p.2.card)).sum := by
  suffices h : ∀ init : Finset α,
      (fds.foldl (fun acc p => acc ∪ p.2) init).card ≤
        init.card + (fds.map (fun p => p.2.card)).sum by
    simpa using h ∅
  induction fds with
  | nil => intro init; simp
  | cons q fds ih =>
    intro init
    calc (List.foldl (fun acc p => acc ∪ p.2) (init ∪ q.2) fds).card
        ≤ (init ∪ q.2).card + (fds.map (fun p => p.2.card)).sum := ih (init ∪ q.2)
      _ ≤ init.card + q.2.card + (fds.map (fun p => p.2.card)).sum := by
          exact Nat.add_le_add_right (Finset.card_union_le init q.2) _
      _ = init.card + ((q :: fds).map (fun p => p.2.card)).sum := by
          simp [Nat.add_assoc]

lemma scanFDs_cons (p : FD α) (fds : List (FD α)) (c : Finset α) :
    scanFDs (p :: fds) c = scanFDs fds (if p.1 ⊆ c then c ∪ p.2 else c) := by
  simp [scanFDs, List.foldl]

lemma scanFDs_extensive (fds : List (FD α)) : ∀ c : Finset α, c ⊆ scanFDs fds c := by
  induction fds with
  | nil => intro c; simp [scanFDs]
  | cons q fds ih =>
    intro c
    rw [scanFDs_cons]
    refine Finset.Subset.trans ?_ (ih _)
    split
    · exact Finset.subset_union_left
    · exact Finset.Subset.refl c

lemma scanFDs_absorbs (fds : List (FD α)) :
    ∀ c : Finset α, ∀ p ∈ fds, p.1 ⊆ c → p.2 ⊆ scanFDs fds c := by
  induction fds with
  | nil => intro c p hp; cases hp
  | cons q fds ih =>
    intro c p hp hsub
    rw [scanFDs_cons]
    rcases List.mem_cons.mp hp with h | h
    · subst h
      rw [if_pos hsub]
      exact (Finset.subset_union_right).trans (scanFDs_extensive fds _)
    · refine ih _ p h (hsub.trans ?_)
      split
      · exact Finset.subset_union_left
      · exact Finset.Subset.refl c

lemma scanFDs_subset_closed (fds : List (FD α)) (D : Finset α)
    (hD : ∀ p ∈ fds, p.1 ⊆ D → p.2 ⊆ D) :
    ∀ c : Finset α, c ⊆ D → scanFDs fds c ⊆ D := by
  induction fds with
  | nil => intro c hc; simpa [scanFDs] using hc
  | cons q fds ih =>
    intro c hc
    rw [scanFDs_cons]
    refine ih (fun p hp => hD p (List.mem_cons_of_mem q hp)) _ ?_
    by_cases h : q.1 ⊆ c
    · rw [if_pos h]
      exact Finset.union_subset hc (hD q (List.mem_cons_self q fds) (h.trans hc))
    · rw [if_neg h]
      exact hc

lemma scanFDs_subset_union_rhs (fds : List (FD α)) (c : Finset α) :
    scanFDs fds c ⊆ c ∪ rhsUnion fds := by
  refine scanFDs_subset_closed fds (c ∪ rhsUnion fds) ?_ c Finset.subset_union_left
  intro p hp _
  exact (subset_rhsUnion fds hp).trans Finset.subset_union_right

lemma closIter_extensive (fds : List (FD α)) :
    ∀ (n : Nat) (c : Finset α), c ⊆ closIter fds n c := by
  intro n
  induction n with
  | zero => intro c; simp [closIter]
  | succ n ih =>
    intro c
    rw [closIter]
    split
    · exact Finset.Subset.refl c
    · exact (scanFDs_extensive fds c).trans (ih _)

lemma closIter_subset_closed (fds : List (FD α)) (D : Finset α)
    (hD : ∀ p ∈ fds, p.1 ⊆ D → p.2 ⊆ D) :
    ∀ (n : Nat) (c : Finset α), c ⊆ D → closIter fds n c ⊆ D := by
  intro n
  induction n with
  | zero => intro c hc; simpa [closIter] using hc
  | succ n ih =>
    intro c hc
    rw [closIter]
    split
    · exact hc
    · exact ih _ (scanFDs_subset_closed fds D hD c hc)

lemma closIter_fixed (fds : List (FD α)) (B : Finset α)
    (hB : rhsUnion fds ⊆ B) :
    ∀ (n : Nat) (c : Finset α), c ⊆ B → B.card < n + c.card →
      scanFDs fds (closIter fds n c) = closIter fds n c := by
  intro n
  induction n with
  | zero =>
    intro c hc hlt
    exact absurd (Finset.card_le_card hc) (by omega)
  | succ n ih =>
    intro c hc hlt
    by_cases h : scanFDs fds c = c
    · simp [closIter, h]
    · rw [closIter, if_neg h]
      have hsub : scanFDs fds c ⊆ B :=
        (scanFDs_subset_union_rhs fds c).trans (Finset.union_subset hc hB)
      have hss : c ⊂ scanFDs fds c :=
        Finset.ssubset_iff_subset_ne.mpr ⟨scanFDs_extensive fds c, fun e => h e.symm⟩
      have hcard := Finset.card_lt_card hss
      exact ih (scanFDs fds c) hsub (by omega)

lemma attribute_closure_fixed (X : Finset α) (fds : List (FD α)) :
    scanFDs fds (attribute_closure X fds) = attribute_closure X fds := by
  have h1 : (X ∪ rhsUnion fds).card ≤ X.card + (rhsUnion fds).card :=
    Finset.card_union_le X (rhsUnion fds)
  have h2 := card_rhsUnion_le fds
  refine closIter_fixed fds (X ∪ rhsUnion fds) Finset.subset_union_right _ X
    Finset.subset_union_left ?_
  simp only [closureFuel]
  omega

lemma subset_attribute_closure (X : Finset α) (fds : List (FD α)) :
    X ⊆ attribute_closure X fds :=
  closIter_extensive fds _ X

lemma attribute_closure_subset_closed {X D : Finset α} {fds : List (FD α)}
    (hD : ∀ p ∈ fds, p.1 ⊆ D → p.2 ⊆ D) (hX : X ⊆ D) :
    attribute_closure X fds ⊆ D :=
  closIter_subset_closed fds D hD _ X hX

lemma attribute_closure_closed {X : Finset α} {fds : List (FD α)} :
    ∀ p ∈ fds, p.1 ⊆ attribute_closure X fds → p.2 ⊆ attribute_closure X fds := by
  intro p hp hsub
  have := scanFDs_absorbs fds (attribute_closure X fds) p hp hsub
  rwa [attribute_closure_fixed X fds] at this

lemma attribute_closure_mono {X Y : Finset α} (fds : List (FD α)) (h : X ⊆ Y) :
    attribute_closure X fds ⊆ attribute_closure Y fds :=
  attribute_closure_subset_closed attribute_closure_closed
    (h.trans (subset_attribute_closure Y fds))

lemma attribute_closure_idem (X : Finset α) (fds : List (FD α)) :
    attribute_closure (attribute_closure X fds) fds = attribute_closure X fds :=
  Finset.Subset.antisymm
    (attribute_closure_subset_closed attribute_closure_closed (Finset.Subset.refl _))
    (subset_attribute_closure _ fds)

lemma attribute_closure_subset_union_rhs (X : Finset α) (fds : List (FD α)) :
    attribute_closure X fds ⊆ X ∪ rhsUnion fds := by
  refine attribute_closure_subset_closed ?_ Finset.subset_union_left
  intro p hp _
  exact (subset_rhsUnion fds hp).trans Finset.subset_union_right

end ClosureLemmas

/-! Sorted-enumeration lemmas -/

section SortLemmas

variable {α : Type} [LinearOrder α]

lemma sortMultiset_coe (m : Multiset α) : (sortMultiset m : Multiset α) = m :=
  Quot.inductionOn m (fun l => Quot.sound (List.perm_insertionSort _ l))

lemma sortMultiset_sorted (m : Multiset α) : List.Sorted (· ≤ ·) (sortMultiset m) :=
  Quot.inductionOn m (fun l => List.sorted_insertionSort _ l)

lemma mem_sortFinset {s : Finset α} {a : α} : a ∈ sortFinset s ↔ a ∈ s := by
  rw [← Multiset.mem_coe, sortFinset, sortMultiset_coe]
  rfl

lemma nodup_sortFinset (s : Finset α) : (sortFinset s).Nodup := by
  have h : ((sortFinset s : List α) : Multiset α).Nodup := by
    rw [sortFinset, sortMultiset_coe]
    exact s.nodup
  exact Multiset.coe_nodup.mp h

lemma length_sortFinset (s : Finset α) : (sortFinset s).length = s.card := by
  have h : Multiset.card ((sortFinset s : List α) : Multiset α) = Multiset.card s.val := by
    rw [sortFinset, sortMultiset_coe]
  simpa using h

lemma sorted_sortFinset (s : Finset α) : List.Sorted (· ≤ ·) (sortFinset s) :=
  sortMultiset_sorted s.val

lemma toFinset_sortFinset (s : Finset α) : (sortFinset s).toFinset = s := by
  ext a
  rw [List.mem_toFinset, mem_sortFinset]

lemma sortFinset_sublist {T S : Finset α} (h : T ⊆ S) :
    (sortFinset T).Sublist (sortFinset S) := by
  refine List.sublist_of_subperm_of_sorted
    (List.subperm_of_subset (nodup_sortFinset T) ?_)
    (sorted_sortFinset T) (sorted_sortFinset S)
  intro a ha
  exact mem_sortFinset.mpr (h (mem_sortFinset.mp ha))

end SortLemmas

/-! Key-finder lemmas -/

section KeyLemmas

variable {α : Type} [LinearOrder α]

lemma ess_subset_of_superkey {all S : Finset α} {fds : List (FD α)}
    (h : attribute_closure S fds = all) : all \ rhsUnion fds ⊆ S := by
  intro x hx
  have hx' := Finset.mem_sdiff.mp hx
  have : x ∈ S ∪ rhsUnion fds := by
    refine attribute_closure_subset_union_rhs S fds ?_
    rw [h]
    exact hx'.1
  rcases Finset.mem_union.mp this with h' | h'
  · exact h'
  · exact absurd h' hx'.2

lemma keyCandidates_subset_all {all : Finset α} {fds : List (FD α)} {c : Finset α}
    (hc : c ∈ keyCandidates all fds) : c ⊆ all := by
  simp only [keyCandidates, List.mem_flatMap, List.mem_map] at hc
  obtain ⟨r, _, comb, hcomb, rfl⟩ := hc
  have hsl := (List.mem_sublistsLen.mp hcomb).1
  refine Finset.union_subset Finset.sdiff_subset ?_
  intro x hx
  have hx' : x ∈ sortFinset (all \ (all \ rhsUnion fds)) :=
    hsl.subset (List.mem_toFinset.mp hx)
  exact (Finset.mem_sdiff.mp (mem_sortFinset.mp hx')).1

lemma card_keyCandidate {all : Finset α} {fds : List (FD α)} {r : Nat}
    {comb : List α}
    (hcomb : comb ∈ List.sublistsLen r (sortFinset (all \ (all \ rhsUnion fds)))) :
    (all \ rhsUnion fds ∪ comb.toFinset).card = (all \ rhsUnion fds).card + r := by
  obtain ⟨hsl, hlen⟩ := List.mem_sublistsLen.mp hcomb
  have hnd : comb.Nodup := hsl.nodup (nodup_sortFinset _)
  have hdisj : Disjoint (all \ rhsUnion fds) comb.toFinset := by
    rw [Finset.disjoint_left]
    intro x hx hx'
    have : x ∈ all \ (all \ rhsUnion fds) :=
      mem_sortFinset.mp (hsl.subset (List.mem_toFinset.mp hx'))
    exact (Finset.mem_sdiff.mp this).2 hx
  rw [Finset.card_union_of_disjoint hdisj, List.toFinset_card_of_nodup hnd, hlen]

lemma keyCandidates_pairwise_card (all : Finset α) (fds : List (FD α)) :
    (keyCandidates all fds).Pairwise (fun a b => a.card ≤ b.card) := by
  rw [keyCandidates]
  generalize hN : (sortFinset (all \ (all \ rhsUnion fds))).length + 1 = N
  have hrange : (List.range N).Pairwise (· ≤ ·) := List.pairwise_le_range N
  clear hN
  induction N with
  | zero => simp
  | succ N ih =>
    rw [List.range_succ] at hrange ⊢
    rw [List.flatMap_append]
    rw [List.pairwise_append] at hrange ⊢
    refine ⟨ih hrange.1, ?_, ?_⟩
    · simp only [List.flatMap_cons, List.flatMap_nil, List.append_nil]
      refine List.pairwise_of_forall_mem_list ?_
      intro a ha b hb
      simp only [List.mem_map] at ha hb
      obtain ⟨ca, hca, rfl⟩ := ha
      obtain ⟨cb, hcb, rfl⟩ := hb
      rw [card_keyCandidate hca, card_keyCandidate hcb]
    · intro a ha b hb
      simp only [List.mem_flatMap, List.mem_map] at ha
      simp only [List.flatMap_cons, List.flatMap_nil, List.append_nil,
        List.mem_map] at hb
      obtain ⟨r, hr, ca, hca, rfl⟩ := ha
      obtain ⟨cb, hcb, rfl⟩ := hb
      rw [card_keyCandidate hca, card_keyCandidate hcb]
      have : r ≤ N := Nat.le_of_lt (List.mem_range.mp hr)
      omega

lemma superkey_mem_keyCandidates {all S : Finset α} {fds : List (FD α)}
    (hclos : attribute_closure S fds = all) (hsub : S ⊆ all) :
    S ∈ keyCandidates all fds := by
  have hES : all \ rhsUnion fds ⊆ S := ess_subset_of_superkey hclos
  have hT : S \ (all \ rhsUnion fds) ⊆ all \ (all \ rhsUnion fds) := by
    intro x hx
    have hx' := Finset.mem_sdiff.mp hx
    exact Finset.mem_sdiff.mpr ⟨hsub hx'.1, hx'.2⟩
  have hsl : (sortFinset (S \ (all \ rhsUnion fds))).Sublist
      (sortFinset (all \ (all \ rhsUnion fds))) := sortFinset_sublist hT
  simp only [keyCandidates, List.mem_flatMap, List.mem_map]
  refine ⟨(S \ (all \ rhsUnion fds)).card, ?_,
    sortFinset (S \ (all \ rhsUnion fds)), ?_, ?_⟩
  · rw [List.mem_range, length_sortFinset]
    exact Nat.lt_succ_of_le (Finset.card_le_card hT)
  · exact List.mem_sublistsLen.mpr ⟨hsl, length_sortFinset _⟩
  · rw [toFinset_sortFinset]
    exact Finset.union_sdiff_of_subset hES

lemma keyFold_spec (fds : List (FD α)) (all : Finset α) :
    ∀ (L : List (Finset α)) (keys : List (Finset α)),
      L.Pairwise (fun a b => a.card ≤ b.card) →
      (∀ k ∈ keys, attribute_closure k fds = all) →
      (∀ k ∈ keys, ∀ c ∈ L, k.card ≤ c.card) →
      (∀ k₁ ∈ keys, ∀ k₂ ∈ keys, k₁ ⊆ k₂ → k₁ = k₂) →
      (∀ k ∈ L.foldl (keyStep fds all) keys, attribute_closure k fds = all) ∧
      (∀ k ∈ keys, k ∈ L.foldl (keyStep fds all) keys) ∧
      (∀ c ∈ L, attribute_closure c fds = all →
        ∃ k ∈ L.foldl (keyStep fds all) keys, k ⊆ c) ∧
      (∀ k₁ ∈ L.foldl (keyStep fds all) keys,
        ∀ k₂ ∈ L.foldl (keyStep fds all) keys, k₁ ⊆ k₂ → k₁ = k₂) ∧
      (∀ k ∈ L.foldl (keyStep fds all) keys, k ∈ keys ∨ k ∈ L) := by
  intro L
  induction L with
  | nil =>
    intro keys _ h1 _ h3
    exact ⟨h1, fun k hk => hk, by simp, h3, fun k hk => Or.inl hk⟩
  | cons c L ih =>
    intro keys hL h1 h2 h3
    rw [List.pairwise_cons] at hL
    obtain ⟨hhead, htail⟩ := hL
    rw [List.foldl_cons]
    by_cases hany : keys.any (fun k => decide (k ⊆ c)) = true
    · -- candidate skipped: an accepted key is already contained in it
      have hstep : keyStep fds all keys c = keys := by
        simp [keyStep, hany]
      rw [hstep]
      obtain ⟨p1, p2, p3, p4, p5⟩ := ih keys htail h1
        (fun k hk c' hc' => h2 k hk c' (List.mem_cons_of_mem c hc')) h3
      refine ⟨p1, p2, ?_, p4, ?_⟩
      · intro d hd hclosd
        rcases List.mem_cons.mp hd with h | h
        · subst h
          obtain ⟨k, hk, hkc⟩ := List.any_eq_true.mp hany
          exact ⟨k, p2 k hk, of_decide_eq_true hkc⟩
        · exact p3 d h hclosd
      · intro k hk
        rcases p5 k hk with h | h
        · exact Or.inl h
        · exact Or.inr (List.mem_cons_of_mem c h)
    · have hnone : ∀ k ∈ keys, ¬ k ⊆ c := by
        intro k hk
        have := List.any_eq_false.mp (Bool.eq_false_iff.mpr hany) k hk
        simpa using this
      by_cases hclos : attribute_closure c fds = all
      · -- candidate accepted
        have hstep : keyStep fds all keys c = keys ++ [c] := by
          simp [keyStep, hany, hclos]
        rw [hstep]
        have h1' : ∀ k ∈ keys ++ [c], attribute_closure k fds = all := by
          intro k hk
          rcases List.mem_append.mp hk with h | h
          · exact h1 k h
          · rw [List.mem_singleton.mp h]
            exact hclos
        have h2' : ∀ k ∈ keys ++ [c], ∀ c' ∈ L, k.card ≤ c'.card := by
          intro k hk c' hc'
          rcases List.mem_append.mp hk with h | h
          · exact h2 k h c' (List.mem_cons_of_mem c hc')
          · rw [List.mem_singleton.mp h]
            exact hhead c' hc'
        have h3' : ∀ k₁ ∈ keys ++ [c], ∀ k₂ ∈ keys ++ [c], k₁ ⊆ k₂ → k₁ = k₂ := by
          intro k₁ hk₁ k₂ hk₂ hsub
          rcases List.mem_append.mp hk₁ with ha | ha <;>
            rcases List.mem_append.mp hk₂ with hb | hb
          · exact h3 k₁ ha k₂ hb hsub
          · rw [List.mem_singleton.mp hb] at hsub
            exact absurd hsub (hnone k₁ ha)
          · rw [List.mem_singleton.mp ha] at hsub ⊢
            exact Finset.eq_of_subset_of_card_le hsub
              (h2 k₂ hb c (List.mem_cons_self c L))
          · rw [List.mem_singleton.mp ha, List.mem_singleton.mp hb]
        obtain ⟨p1, p2, p3, p4, p5⟩ := ih (keys ++ [c]) htail h1' h2' h3'
        refine ⟨p1, ?_, ?_, p4, ?_⟩
        · intro k hk
          exact p2 k (List.mem_append_left _ hk)
        · intro d hd hclosd
          rcases List.mem_cons.mp hd with h | h
          · subst h
            exact ⟨d, p2 d (List.mem_append_right _ (List.mem_singleton_self d)),
              Finset.Subset.refl d⟩
          · exact p3 d h hclosd
        · intro k hk
          rcases p5 k hk with h | h
          · rcases List.mem_append.mp h with h' | h'
            · exact Or.inl h'
            · exact Or.inr (by rw [List.mem_singleton.mp h']; exact List.mem_cons_self c L)
          · exact Or.inr (List.mem_cons_of_mem c h)
      · -- candidate rejected: closure is not the full universe
        have hstep : keyStep fds all keys c = keys := by
          simp [keyStep, hany, hclos]
        rw [hstep]
        obtain ⟨p1, p2, p3, p4, p5⟩ := ih keys htail h1
          (fun k hk c' hc' => h2 k hk c' (List.mem_cons_of_mem c hc')) h3
        refine ⟨p1, p2, ?_, p4, ?_⟩
        · intro d hd hclosd
          rcases List.mem_cons.mp hd with h | h
          · subst h
            exact absurd hclosd hclos
          · exact p3 d h hclosd
        · intro k hk
          rcases p5 k hk with h | h
          · exact Or.inl h
          · exact Or.inr (List.mem_cons_of_mem c h)

end KeyLemmas

section KeySpec

variable {α : Type} [LinearOrder α]

lemma find_candidate_keys_spec (all : Finset α) (fds : List (FD α)) :
    (∀ K ∈ find_candidate_keys all fds, attribute_closure K fds = all ∧
      ∀ S, S ⊂ K → attribute_closure S fds ≠ all) ∧
    (∀ K₁ ∈ find_candidate_keys all fds, ∀ K₂ ∈ find_candidate_keys all fds,
      K₁ ⊆ K₂ → K₁ = K₂) := by
  obtain ⟨p1, p2, p3, p4, p5⟩ := keyFold_spec fds all (keyCandidates all fds) []
    (keyCandidates_pairwise_card all fds) (by simp) (by simp) (by simp)
  by_cases hF : (keyCandidates all fds).foldl (keyStep fds all) [] = []
  · by_cases hall : attribute_closure all fds = all
    · exfalso
      obtain ⟨k, hk, _⟩ :=
        p3 all (superkey_mem_keyCandidates hall (Finset.Subset.refl all)) hall
      rw [hF] at hk
      cases hk
    · have : find_candidate_keys all fds = [] := by
        simp [find_candidate_keys, hF, hall]
      rw [this]
      exact ⟨fun K hK => absurd hK (List.not_mem_nil K),
        fun K₁ hK₁ => absurd hK₁ (List.not_mem_nil K₁)⟩
  · have heq : find_candidate_keys all fds =
        (keyCandidates all fds).foldl (keyStep fds all) [] := by
      simp [find_candidate_keys, hF]
    rw [heq]
    refine ⟨?_, p4⟩
    intro K hK
    refine ⟨p1 K hK, ?_⟩
    intro S hSK hclosS
    have hKcand : K ∈ keyCandidates all fds := by
      rcases p5 K hK with h | h
      · cases h
      · exact h
    have hSall : S ⊆ all := hSK.subset.trans (keyCandidates_subset_all hKcand)
    obtain ⟨k, hkF, hkS⟩ := p3 S (superkey_mem_keyCandidates hclosS hSall) hclosS
    have hkK : k = K := p4 k hkF K hK (hkS.trans hSK.subset)
    rw [hkK] at hkS
    exact hSK.not_subset hkS

lemma find_candidate_keys_ne_nil {all : Finset α} {fds : List (FD α)}
    (hall : attribute_closure all fds = all) : find_candidate_keys all fds ≠ [] := by
  obtain ⟨p1, p2, p3, p4, p5⟩ := keyFold_spec fds all (keyCandidates all fds) []
    (keyCandidates_pairwise_card all fds) (by simp) (by simp) (by simp)
  by_cases hF : (keyCandidates all fds).foldl (keyStep fds all) [] = []
  · exfalso
    obtain ⟨k, hk, _⟩ :=
      p3 all (superkey_mem_keyCandidates hall (Finset.Subset.refl all)) hall
    rw [hF] at hk
    cases hk
  · have hne : find_candidate_keys all fds =
        (keyCandidates all fds).foldl (keyStep fds all) [] := by
      simp [find_candidate_keys, hF]
    rw [hne]
    exact hF

end KeySpec

/-! Decomposer lemmas -/

section DecompLemmas

variable {α : Type} [DecidableEq α]

lemma findViolation_some {fdsAll : List (FD α)} {attrs : Finset α}
    {x y : Finset α} :
    ∀ {l : List (FD α)}, findViolation fdsAll attrs l = some (x, y) →
      x ⊆ attrs ∧ y = (attribute_closure x fdsAll ∩ attrs) \ x := by
  intro l
  induction l with
  | nil => intro h; cases h
  | cons p rest ih =>
    intro h
    rw [findViolation] at h
    by_cases h1 : p.1 ⊆ attrs
    · rw [if_pos h1] at h
      by_cases h2 : (attribute_closure p.1 fdsAll ∩ attrs) \ p.1 = ∅
      · rw [if_pos h2] at h
        exact ih h
      · rw [if_neg h2] at h
        by_cases h3 : attrs ⊆ attribute_closure p.1 fdsAll ∩ attrs
        · rw [if_pos h3] at h
          exact ih h
        · rw [if_neg h3] at h
          have hinj := Option.some.inj h
          have hx1 : p.1 = x := congrArg Prod.fst hinj
          have hy1 : (attribute_closure p.1 fdsAll ∩ attrs) \ p.1 = y :=
            congrArg Prod.snd hinj
          subst hx1
          exact ⟨h1, hy1.symm⟩
    · rw [if_neg h1] at h
      exact ih h

lemma split_lossless {x y attrs : Finset α} (hx : x ⊆ attrs) (hy : y ⊆ attrs)
    (hdisj : ∀ a ∈ x, a ∉ y) :
    (x ∪ y) ∪ (attrs \ (y \ x)) = attrs ∧ (x ∪ y) ∩ (attrs \ (y \ x)) = x := by
  constructor
  · ext a
    simp only [Finset.mem_union, Finset.mem_sdiff]
    constructor
    · rintro ((h | h) | h)
      · exact hx h
      · exact hy h
      · exact h.1
    · intro h
      by_cases hay : a ∈ y
      · exact Or.inl (Or.inr hay)
      · exact Or.inr ⟨h, fun hc => hay hc.1⟩
  · ext a
    simp only [Finset.mem_inter, Finset.mem_union, Finset.mem_sdiff]
    constructor
    · rintro ⟨hxy, -, hns⟩
      rcases hxy with h | h
      · exact h
      · by_contra hax
        exact hns ⟨h, hax⟩
    · intro h
      exact ⟨Or.inl h, hx h, fun hc => hdisj a h hc.1⟩

lemma bcnfLoop_steps_spec (fds : List (FD α)) :
    ∀ (n : Nat) (q : List (Schema α)) (steps : List (DStep α))
      (finals : List (Schema α)),
      (∀ st ∈ steps, st.child1.attrs ∪ st.child2.attrs = st.current.attrs ∧
        st.child1.attrs ∩ st.child2.attrs = st.fdL) →
      ∀ st ∈ (bcnfLoop fds n q steps finals).1,
        st.child1.attrs ∪ st.child2.attrs = st.current.attrs ∧
        st.child1.attrs ∩ st.child2.attrs = st.fdL := by
  intro n
  induction n with
  | zero =>
    intro q steps finals hinv
    cases q with
    | nil => exact hinv
    | cons s q => exact hinv
  | succ n ih =>
    intro q steps finals hinv
    cases q with
    | nil => exact hinv
    | cons s q =>
      rw [bcnfLoop]
      cases hv : findViolation fds s.attrs fds with
      | none => exact ih q steps (finals ++ [s]) hinv
      | some xy =>
        obtain ⟨x, y⟩ := xy
        obtain ⟨hx, hy⟩ := findViolation_some hv
        have hysub : y ⊆ s.attrs := by
          rw [hy]
          exact Finset.Subset.trans Finset.sdiff_subset Finset.inter_subset_right
        have hdisj : ∀ a ∈ x, a ∉ y := by
          intro a ha hay
          rw [hy] at hay
          exact (Finset.mem_sdiff.mp hay).2 ha
        refine ih _ _ finals ?_
        intro st hst
        rcases List.mem_append.mp hst with h | h
        · exact hinv st h
        · rw [List.mem_singleton.mp h]
          obtain ⟨hu, hi⟩ := split_lossless hx hysub hdisj
          exact ⟨hu, hi⟩

end DecompLemmas

/-! Parser lemmas -/

section ParserLemmas

lemma splitFuel_no_match (s : Char) :
    ∀ (n : Nat) (l acc : List Char), l.length ≤ n → (∀ c ∈ l, c ≠ s) →
      splitFuel [s] n l acc = [acc.reverse ++ l] := by
  intro n
  induction n with
  | zero =>
    intro l acc hlen _
    have : l = [] := List.eq_nil_of_length_eq_zero (Nat.le_zero.mp hlen)
    subst this
    simp [splitFuel]
  | succ n ih =>
    intro l acc hlen hns
    cases l with
    | nil => simp [splitFuel]
    | cons c cs =>
      have hne : (s == c) = false := by
        have := hns c (List.mem_cons_self c cs)
        simp [beq_iff_eq]
        exact fun e => this e.symm
      have hpre : [s].isPrefixOf (c :: cs) = false := by
        simp [List.isPrefixOf, hne]
      rw [splitFuel, if_neg (by simp [hpre])]
      rw [ih cs (c :: acc) (by simpa using Nat.lt_succ_iff.mp (Nat.lt_of_lt_of_le (Nat.lt_succ_of_le (Nat.le_refl _)) hlen)) (fun d hd => hns d (List.mem_cons_of_mem c hd))]
      simp

lemma splitL_no_match {s : Char} {l : List Char} (h : ∀ c ∈ l, c ≠ s) :
    splitL [s] l = [l] := by
  rw [splitL, splitFuel_no_match s l.length l [] (Nat.le_refl _) h]
  simp

lemma trimL_all_ws {l : List Char} (h : ∀ c ∈ l, c.isWhitespace = true) :
    trimL l = [] := by
  have h1 : l.dropWhile Char.isWhitespace = [] := List.dropWhile_eq_nil_iff.mpr h
  rw [trimL, h1]
  simp

lemma mkSide_all_ws {b : List Char} (h : ∀ c ∈ b, c.isWhitespace = true) :
    mkSide b = {([] : List Char)} := by
  have hnc : ∀ c ∈ b, c ≠ ',' := by
    intro c hc he
    subst he
    exact absurd (h _ hc) (by decide)
  rw [mkSide, splitL_no_match hnc]
  simp [trimL_all_ws h]

lemma lineParts_of_trim_nil {l : List Char} (h : trimL l = []) :
    lineParts l = [[]] := by
  rw [lineParts, h]
  rfl

lemma parse_fds_lines_error :
    ∀ ls : List (List Char), (∃ l ∈ ls, 3 ≤ (lineParts l).length) →
      parse_fds_lines ls = .error () := by
  intro ls
  induction ls with
  | nil => rintro ⟨l, hl, -⟩; cases hl
  | cons l rest ih =>
    rintro ⟨l', hl', hlen⟩
    rcases List.mem_cons.mp hl' with h | h
    · subst h
      by_cases htrim : trimL l' = []
      · rw [lineParts_of_trim_nil htrim] at hlen
        exact absurd hlen (by decide)
      · rcases hlp : lineParts l' with - | ⟨a, - | ⟨b, - | ⟨c, tl⟩⟩⟩
        · rw [hlp] at hlen; exact absurd hlen (by decide)
        · rw [hlp] at hlen; exact absurd hlen (by simp)
        · rw [hlp] at hlen; exact absurd hlen (by simp)
        · simp only [parse_fds_lines, if_neg htrim, hlp]
    · have herr := ih ⟨l', h, hlen⟩
      by_cases htrim : trimL l = []
      · simpa only [parse_fds_lines, if_pos htrim] using herr
      · rcases hlp : lineParts l with - | ⟨a, - | ⟨b, - | ⟨c, tl⟩⟩⟩
        · simp only [parse_fds_lines, if_neg htrim, hlp]
        · simpa only [parse_fds_lines, if_neg htrim, hlp] using herr
        · simp only [parse_fds_lines, if_neg htrim, hlp, herr, Except.map]
        · simp only [parse_fds_lines, if_neg htrim, hlp]

lemma parse_fds_lines_skip {l : List Char} (rest : List (List Char))
    (h : (lineParts l).length = 1) :
    parse_fds_lines (l :: rest) = parse_fds_lines rest := by
  by_cases htrim : trimL l = []
  · simp only [parse_fds_lines, if_pos htrim]
  · rcases hlp : lineParts l with - | ⟨a, - | ⟨b, - | ⟨c, tl⟩⟩⟩
    · rw [hlp] at h; exact absurd h (by decide)
    · simp only [parse_fds_lines, if_neg htrim, hlp]
    · rw [hlp] at h; exact absurd h (by simp)
    · rw [hlp] at h
      simp at h

end ParserLemmas


/-! Claim theorems -/

section Claims

/-- Claim C1: every attribute set in the list returned by
`find_candidate_keys(attributes, fds)` is a superkey of the universe
(`attribute_closure(K, fds) == attributes`), is minimal (no proper subset has
full closure), and consequently no two returned keys are subsets of each
other. -/
theorem claimC1_keys_minimal_superkeys {α : Type} [LinearOrder α]
    (all : Finset α) (fds : List (FD α)) :
    (∀ K ∈ find_candidate_keys all fds,
      attribute_closure K fds = all ∧ ∀ S, S ⊂ K → attribute_closure S fds ≠ all) ∧
    (∀ K₁ ∈ find_candidate_keys all fds, ∀ K₂ ∈ find_candidate_keys all fds,
      K₁ ⊆ K₂ → K₁ = K₂) :=
  find_candidate_keys_spec all fds

/-- Witness for C1 at `attributes = {0,1,2}`, `fds = [{0} → {1}]`, whose only
key is `{0,2}`: it is a superkey and its proper subset `{0}` is not. -/
theorem claimC1_witness :
    attribute_closure ({0, 2} : Finset ℕ) [({0}, {1})] = {0, 1, 2} ∧
    attribute_closure ({0} : Finset ℕ) [({0}, {1})] ≠ {0, 1, 2} := by
  have h := claimC1_keys_minimal_superkeys ({0, 1, 2} : Finset ℕ) [({0}, {1})]
  have hmem : ({0, 2} : Finset ℕ) ∈
      find_candidate_keys ({0, 1, 2} : Finset ℕ) [({0}, {1})] := by decide
  exact ⟨(h.1 _ hmem).1, (h.1 _ hmem).2 {0} (by decide)⟩

/-- Claim C2: `determine_normal_form` returns verdict `"1NF"` whenever its
2NF-violation list is non-empty (and then never `"2NF"`, `"3NF"` or
`"BCNF"`); else `"2NF"` whenever the 3NF list is non-empty; else `"3NF"`
whenever the BCNF list is non-empty; else `"BCNF"` with empty violations. -/
theorem claimC2_verdict_precedence {α : Type} [DecidableEq α]
    (attrs : Finset α) (fds : List (FD α)) (keys : List (Finset α)) :
    ((nfViolations attrs fds keys).1 ≠ [] →
      (determine_normal_form attrs fds keys).1 = "1NF" ∧
      (determine_normal_form attrs fds keys).1 ≠ "2NF" ∧
      (determine_normal_form attrs fds keys).1 ≠ "3NF" ∧
      (determine_normal_form attrs fds keys).1 ≠ "BCNF") ∧
    ((nfViolations attrs fds keys).1 = [] → (nfViolations attrs fds keys).2.1 ≠ [] →
      (determine_normal_form attrs fds keys).1 = "2NF") ∧
    ((nfViolations attrs fds keys).1 = [] → (nfViolations attrs fds keys).2.1 = [] →
      (nfViolations attrs fds keys).2.2 ≠ [] →
      (determine_normal_form attrs fds keys).1 = "3NF") ∧
    ((nfViolations attrs fds keys).1 = [] → (nfViolations attrs fds keys).2.1 = [] →
      (nfViolations attrs fds keys).2.2 = [] →
      (determine_normal_form attrs fds keys).1 = "BCNF" ∧
      (determine_normal_form attrs fds keys).2.2 = []) := by
  by_cases h2 : (nfViolations attrs fds keys).1 = [] <;>
    by_cases h3 : (nfViolations attrs fds keys).2.1 = [] <;>
      by_cases hb : (nfViolations attrs fds keys).2.2 = [] <;>
        simp [determine_normal_form, h2, h3, hb]

/-- Witness for C2 at an input with a partial dependency (`{0} → {2}` with
candidate key `{0,1}`): the 2NF list is non-empty and the verdict is 1NF. -/
theorem claimC2_witness :
    (determine_normal_form ({0, 1, 2} : Finset ℕ) [({0}, {2})] [{0, 1}]).1 = "1NF" ∧
    (determine_normal_form ({0, 1, 2} : Finset ℕ) [({0}, {2})] [{0, 1}]).1 ≠ "BCNF" := by
  have h := (claimC2_verdict_precedence ({0, 1, 2} : Finset ℕ)
    [({0}, {2})] [{0, 1}]).1 (by decide)
  exact ⟨h.1, h.2.2.2⟩

/-- Claim C3: every decomposition step recorded by `decompose_to_bcnf`
partitions the source schema exactly: the children's attribute union is the
source attribute set and their intersection is the violating determinant. -/
theorem claimC3_steps_lossless {α : Type} [DecidableEq α]
    (name : List Char) (attrs : Finset α) (fds : List (FD α)) :
    ∀ st ∈ (decompose_to_bcnf name attrs fds).1,
      st.child1.attrs ∪ st.child2.attrs = st.current.attrs ∧
      st.child1.attrs ∩ st.child2.attrs = st.fdL :=
  fun st hst => bcnfLoop_steps_spec fds 50 [⟨name, attrs⟩] [] [] (by simp) st hst

/-- Witness for C3 at `R(0,1,2)` with `{1} → {2}`: the single step splits
into `{1,2}` and `{0,1}` with union `{0,1,2}` and intersection `{1}`. -/
theorem claimC3_witness :
    ({1, 2} : Finset ℕ) ∪ {0, 1} = {0, 1, 2} ∧ ({1, 2} : Finset ℕ) ∩ {0, 1} = {1} := by
  have h := claimC3_steps_lossless ['R'] ({0, 1, 2} : Finset ℕ) [({1}, {2})]
    ⟨⟨['R'], {0, 1, 2}⟩, {1}, {2}, ⟨['R', '_', '1'], {1, 2}⟩, ⟨['R', '_', '2'], {0, 1}⟩⟩
    (by decide)
  exact h

set_option maxRecDepth 100000 in
set_option maxHeartbeats 4000000 in
/-- Claim C4 (code evaluated at the failing input): with 25 independent
violating FDs over 51 attributes the queue still holds work when the 50
iteration budget runs out, yet `decompose_to_bcnf` returns the plain
truncated `(steps, final_schemas)` pair, indistinguishable from a converged
result — there is no "did not converge" signal. -/
theorem claimC4_cap_reached_silently :
    (bcnfLoop capFds 50 [⟨['R'], capAttrs⟩] [] []).2.2 ≠ [] ∧
    decompose_to_bcnf ['R'] capAttrs capFds =
      ((bcnfLoop capFds 50 [⟨['R'], capAttrs⟩] [] []).1,
        (bcnfLoop capFds 50 [⟨['R'], capAttrs⟩] [] []).2.1) :=
  ⟨by decide, rfl⟩

/-- Claim C5 counterexample: on `attributes = {0}` with FD `{0} → {1}` the
combination search accepts nothing and the fallback guard also fails, so
`find_candidate_keys` returns the empty list, not `[attributes]`. -/
theorem claimC5_counterexample :
    find_candidate_keys ({0} : Finset ℕ) [({0}, {1})] = [] := by decide

/-- Claim C5 (amended): `find_candidate_keys` returns at least one key
whenever the full attribute set passes the closure check
(`attribute_closure(attributes, fds) == attributes`); when that check fails
the search accepts nothing and the empty list is returned, the fallback
branch never firing. -/
theorem claimC5_selfheal_guarded {α : Type} [LinearOrder α]
    (all : Finset α) (fds : List (FD α))
    (h : attribute_closure all fds = all) : find_candidate_keys all fds ≠ [] :=
  find_candidate_keys_ne_nil h

/-- Witness for the amended C5 at `attributes = {0,1}`, `fds = [{0} → {1}]`. -/
theorem claimC5_witness : find_candidate_keys ({0, 1} : Finset ℕ) [({0}, {1})] ≠ [] :=
  claimC5_selfheal_guarded {0, 1} [({0}, {1})] (by decide)

/-- Claim C6 counterexample: with universe `{0}` and FD `{0} → {1}` the FD is
not inert: removing it changes the closure of `{0}`, and the closure escapes
the universe. -/
theorem claimC6_counterexample :
    attribute_closure ({0} : Finset ℕ) [({0}, {1})] ≠
      attribute_closure ({0} : Finset ℕ)
        (([({0}, {1})] : List (FD ℕ)).filter
          (fun p => decide (p.1 ⊆ {0}) && decide (p.2 ⊆ {0}))) ∧
    ¬ attribute_closure ({0} : Finset ℕ) [({0}, {1})] ⊆ {0} := by decide

/-- Claim C6 (amended): `attribute_closure` is total (never crashes) but
applies every FD as written; only when every FD's determinant and dependent
lie inside the universe is the closure of a subset of the universe guaranteed
to stay inside it. -/
theorem claimC6_closure_within_universe {α : Type} [DecidableEq α]
    (U X : Finset α) (fds : List (FD α))
    (hfds : ∀ p ∈ fds, p.1 ⊆ U ∧ p.2 ⊆ U) (hX : X ⊆ U) :
    attribute_closure X fds ⊆ U :=
  attribute_closure_subset_closed (fun p hp _ => (hfds p hp).2) hX

/-- Witness for the amended C6 with universe `{0,1}` and FD `{0} → {1}`. -/
theorem claimC6_witness : attribute_closure ({0} : Finset ℕ) [({0}, {1})] ⊆ {0, 1} :=
  claimC6_closure_within_universe {0, 1} {0} [({0}, {1})] (by decide) (by decide)

/-- Claim C7: `attribute_closure` is monotonic (`X ⊆ Y` implies
`closure(X) ⊆ closure(Y)`) and extensive (`X ⊆ closure(X)`). -/
theorem claimC7_closure_monotone_extensive {α : Type} [DecidableEq α]
    (X Y : Finset α) (fds : List (FD α)) :
    (X ⊆ Y → attribute_closure X fds ⊆ attribute_closure Y fds) ∧
    X ⊆ attribute_closure X fds :=
  ⟨fun h => attribute_closure_mono fds h, subset_attribute_closure X fds⟩

/-- Witness for C7 at `X = {0}`, `Y = {0,1}`, `fds = [{1} → {2}]`. -/
theorem claimC7_witness :
    attribute_closure ({0} : Finset ℕ) [({1}, {2})] ⊆
      attribute_closure ({0, 1} : Finset ℕ) [({1}, {2})] ∧
    ({0} : Finset ℕ) ⊆ attribute_closure ({0} : Finset ℕ) [({1}, {2})] :=
  ⟨(claimC7_closure_monotone_extensive {0} {0, 1} [({1}, {2})]).1 (by decide),
    (claimC7_closure_monotone_extensive ({0} : Finset ℕ) {0, 1} [({1}, {2})]).2⟩

/-- Claim C8: `attribute_closure` is idempotent. -/
theorem claimC8_closure_idempotent {α : Type} [DecidableEq α]
    (X : Finset α) (fds : List (FD α)) :
    attribute_closure (attribute_closure X fds) fds = attribute_closure X fds :=
  attribute_closure_idem X fds

/-- Claim C9: a line whose chosen separator occurs two or more times (the
split has three or more parts) makes `parse_fds` fail with the uncaught
unpacking error, while a line whose split has a single part (no separator)
is silently skipped. -/
theorem claimC9_multiseparator_error (input : List Char) :
    ((∃ l ∈ splitL ['\n'] (trimL input), 3 ≤ (lineParts l).length) →
      parse_fds input = .error ()) ∧
    (∀ (l : List Char) (rest : List (List Char)), (lineParts l).length = 1 →
      parse_fds_lines (l :: rest) = parse_fds_lines rest) :=
  ⟨fun h => parse_fds_lines_error _ h,
    fun _ rest h => parse_fds_lines_skip rest h⟩

/-- Witness for C9: `"A -> B -> C"` raises, `"A B"` is skipped. -/
theorem claimC9_witness :
    parse_fds ['A', ' ', '-', '>', ' ', 'B', ' ', '-', '>', ' ', 'C'] = .error () ∧
    parse_fds_lines [['A', ' ', 'B'], ['X', '-', '>', 'Y']] =
      parse_fds_lines [['X', '-', '>', 'Y']] :=
  ⟨(claimC9_multiseparator_error ['A', ' ', '-', '>', ' ', 'B', ' ', '-', '>', ' ', 'C']).1
      (by decide),
    (claimC9_multiseparator_error []).2 ['A', ' ', 'B'] [['X', '-', '>', 'Y']] (by decide)⟩

/-- Claim C10: a line with exactly one separator whose left or right side is
empty (all whitespace) is neither skipped nor rejected: `parse_fds` emits an
FD whose corresponding side is the singleton containing the empty string. -/
theorem claimC10_empty_side_kept (line a b : List Char) (rest : List (List Char))
    (h1 : trimL line ≠ []) (h2 : lineParts line = [a, b]) :
    ((∀ c ∈ b, c.isWhitespace = true) →
      parse_fds_lines (line :: rest) =
        (parse_fds_lines rest).map
          (fun fds => (mkSide a, ({[]} : Finset (List Char))) :: fds)) ∧
    ((∀ c ∈ a, c.isWhitespace = true) →
      parse_fds_lines (line :: rest) =
        (parse_fds_lines rest).map
          (fun fds => (({[]} : Finset (List Char)), mkSide b) :: fds)) := by
  constructor
  · intro hws
    simp only [parse_fds_lines, if_neg h1, h2]
    rw [mkSide_all_ws hws]
  · intro hws
    simp only [parse_fds_lines, if_neg h1, h2]
    rw [mkSide_all_ws hws]

/-- Witness for C10 at the line `"A ->"`: the parsed FD is
`({"A"}, {""})`, the right side the singleton of the empty string. -/
theorem claimC10_witness :
    parse_fds_lines [['A', ' ', '-', '>']] =
      .ok [(({['A']} : Finset (List Char)), ({[]} : Finset (List Char)))] := by
  have h := (claimC10_empty_side_kept ['A', ' ', '-', '>'] ['A', ' '] [] []
    (by decide) (by rfl)).1 (by simp)
  rw [h]
  rfl

end Claims

end NormTool
